import Mathlib

/-!
Shallow embedding of the name-correction core of the Subtitle_toolbox repository
(source file `name_list_replacement.py`), together with theorems checking the
natural-language specification of that core against the code.

Modelling conventions.  Python strings are Lean `String`s (character sequences;
Python's `len` is the character count `String.length`).  Python integers are
`Int` (`Nat` where the source value is a count or offset that is never
negative).  A Python dictionary built by repeated key assignment is an
association list in insertion order: `d[k] = v` updates the stored value in
place when `k` is already a key and appends `(k, v)` otherwise, exactly as
CPython's insertion-ordered dicts behave.  Python's `sorted` is stable; it is
modelled by a stable insertion sort.  Python slicing `s[:i]` / `s[i:]` with a
possibly negative integer index is modelled by clamping the index the way the
CPython slice protocol does.  The external flair tagger is a function from a
text to the list of entity spans it reports, in left-to-right order.
-/

/-- Inner recursion of `editDist` on the second word, with `f` the distance
function from the tail of the first word (see `editDist_cons_cons` for the
resulting textbook recurrence). -/
def editDistGo (x : Char) (xs : List Char) (f : List Char → Nat) : List Char → Nat
  | [] => xs.length + 1
  | y :: ys =>
    if x = y then f ys
    else 1 + min (f (y :: ys)) (min (editDistGo x xs f ys) (f ys))

/-- Character-level Levenshtein edit distance with unit-cost insertions,
deletions and substitutions: the semantics of the `Levenshtein.distance`
call at line 37 of `name_list_replacement.py`.  It satisfies the textbook
recurrence, proved as `editDist_nil`, `editDist_cons_nil` and
`editDist_cons_cons` below. -/
def editDist : List Char → List Char → Nat
  | [], ys => ys.length
  | x :: xs, ys => editDistGo x xs (editDist xs) ys

/-- Edit distance on strings, as used by `fix_misspelled_name`. -/
def distance (a b : String) : Nat := editDist a.data b.data

/-- Python dictionary assignment `d[conf_name] = dist` on an insertion-ordered
dict represented as an association list: update in place if the key is present,
append otherwise. -/
def dictInsert (k : String) (v : Nat) : List (String × Nat) → List (String × Nat)
  | [] => [(k, v)]
  | (k', v') :: rest => if k' = k then (k', v) :: rest else (k', v') :: dictInsert k v rest

/-- The acceptance test of lines 40 and 44 of the source: a confirmed name of
length at most 3 is a potential replacement when its distance to the recognized
name is at most 1, a longer confirmed name when its distance is at most the
threshold. -/
def acceptName (recognized_name : String) (char_edit_dist_threshold : Int)
    (conf_name : String) : Bool :=
  (conf_name.length ≤ 3 && distance recognized_name conf_name ≤ 1) ||
    (3 < conf_name.length &&
      (distance recognized_name conf_name : Int) ≤ char_edit_dist_threshold)

/-- One iteration of the loop at lines 33-45 of the source: store the
confirmed name with its distance when the acceptance test passes. -/
def potentialStep (recognized_name : String) (char_edit_dist_threshold : Int)
    (acc : List (String × Nat)) (conf_name : String) : List (String × Nat) :=
  if acceptName recognized_name char_edit_dist_threshold conf_name then
    dictInsert conf_name (distance recognized_name conf_name) acc
  else acc

/-- The `potential_names` dictionary built by the loop at lines 33-45 of the
source, in roster iteration order. -/
def buildPotential (recognized_name : String) (confirmed_names : List String)
    (char_edit_dist_threshold : Int) : List (String × Nat) :=
  confirmed_names.foldl (potentialStep recognized_name char_edit_dist_threshold) []

/-- One step of a stable insertion sort on the stored distance: the new pair
goes before the first pair whose distance is not smaller, so pairs with equal
distances keep their relative order. -/
def insertByVal (p : String × Nat) : List (String × Nat) → List (String × Nat)
  | [] => [p]
  | q :: qs => if q.2 < p.2 then q :: insertByVal p qs else p :: q :: qs

/-- Stable sort by stored distance, the model of the Python
`sorted(potential_names.items(), key = lambda x: x[1])` at line 52
(Python's `sorted` is documented to be stable). -/
def sortByVal : List (String × Nat) → List (String × Nat)
  | [] => []
  | x :: xs => insertByVal x (sortByVal xs)

/-- First pair of the list attaining the minimal stored distance (ties resolved
towards the earlier pair). -/
def firstMinPair : List (String × Nat) → Option (String × Nat)
  | [] => none
  | x :: xs =>
    match firstMinPair xs with
    | none => some x
    | some m => if x.2 ≤ m.2 then some x else some m

/-- Selection rule in the words of the specification: among the entries of the
list, the first one, in iteration order, whose value under `f` is minimal. -/
def firstMinBy (f : String → Nat) : List String → Option String
  | [] => none
  | x :: xs =>
    match firstMinBy f xs with
    | none => some x
    | some m => if f x ≤ f m then some x else some m

/-- Embedding of `fix_misspelled_name` (lines 8-55 of the source): return the
recognized name when it is in the skip list, otherwise build the dictionary of
potential names, return the recognized name when it is empty, and otherwise
return the first key of the dictionary after a stable sort by distance. -/
def fix_misspelled_name (recognized_name : String) (confirmed_names : List String)
    (skip_names : List String) (char_edit_dist_threshold : Int := 2) : String :=
  if recognized_name ∈ skip_names then recognized_name
  else
    let potential_names :=
      buildPotential recognized_name confirmed_names char_edit_dist_threshold
    if potential_names = [] then recognized_name
    else
      match (sortByVal potential_names).head? with
      | some best => best.1
      | none => recognized_name

/-- An entity span as produced by the recognizer: the span text, its tag, and
its start (inclusive) and end (exclusive) character offsets in the text the
recognizer was run on. -/
structure NameSpan where
  text : String
  tag : String
  text_start_pos : Nat
  text_end_pos : Nat
  deriving DecidableEq, Repr

/-- Embedding of `recognize_names` (lines 57-87): run the tagger on the text
and keep the spans tagged as person names, in the order produced. -/
def recognize_names (text : String) (tagger : String → List NameSpan) : List NameSpan :=
  (tagger text).filter (fun entity => entity.tag = "PER")

/-- CPython slice-index resolution for `s[:i]` and `s[i:]`: a negative index
counts from the end, and the result is clamped into `[0, len]`. -/
def pyIdx (len : Nat) (i : Int) : Nat :=
  if i < 0 then ((len : Int) + i).toNat else min i.toNat len

/-- Python `s[:i]` for an arbitrary integer `i`. -/
def pyTakeStr (s : String) (i : Int) : String :=
  ⟨s.data.take (pyIdx s.data.length i)⟩

/-- Python `s[i:]` for an arbitrary integer `i`. -/
def pyDropStr (s : String) (i : Int) : String :=
  ⟨s.data.drop (pyIdx s.data.length i)⟩

/-- Python `s[a:b]` for character offsets `0 ≤ a ≤ b`. -/
def pySliceStr (s : String) (a b : Nat) : String :=
  ⟨(s.data.drop a).take (b - a)⟩

/-- Body of the loop at lines 124-133 of the source: compute the replacement
for the recognized span, splice it into the working caption at the span's
offsets shifted by the accumulated `char_shift`, and update `char_shift` by
the length difference. -/
def captionStep (confirmed_names skip_names : List String)
    (st : String × Int) (rec_name : NameSpan) : String × Int :=
  let fixed_name := fix_misspelled_name rec_name.text confirmed_names skip_names 2
  (pyTakeStr st.1 ((rec_name.text_start_pos : Int) + st.2) ++ fixed_name ++
      pyDropStr st.1 ((rec_name.text_end_pos : Int) + st.2),
    st.2 + ((fixed_name.length : Int) - (rec_name.text.length : Int)))

/-- Embedding of `fix_misspelled_names_of_caption` (lines 89-135): recognize
the person spans, return the caption unchanged when there are none, and
otherwise walk the spans left to right applying `captionStep`. -/
def fix_misspelled_names_of_caption (caption_text : String) (confirmed_names : List String)
    (skip_names : List String) (tagger : String → List NameSpan) : String :=
  let recognized_names := recognize_names caption_text tagger
  if recognized_names.length = 0 then caption_text
  else
    (recognized_names.foldl (captionStep confirmed_names skip_names)
      (caption_text, (0 : Int))).1

/-- The splicing rule in the words of the specification (section 4.2, step 4):
given the replacement for a span, replace the slice
`[start_offset + shift, end_offset + shift)` of the working text by the
replacement and add the length difference to `shift`. -/
def specSpliceStep (replacement : String) (st : String × Int) (sp : NameSpan) : String × Int :=
  (pyTakeStr st.1 ((sp.text_start_pos : Int) + st.2) ++ replacement ++
      pyDropStr st.1 ((sp.text_end_pos : Int) + st.2),
    st.2 + ((replacement.length : Int) - (sp.text.length : Int)))

/-- A subtitle record as the sweep sees it: pysrt's `sub.start`, `sub.end` and
`sub.text` (the timing fields are opaque to the core and modelled as numbers;
the field `end_` stands for the Python attribute `end`). -/
structure SubRipItem where
  start : Nat
  end_ : Nat
  text : String
  deriving DecidableEq, Repr

/-- Model of the call at line 160 of the source,
`fix_misspelled_names_of_caption(caption, tagger = tagger)`: the callee's
required positional parameters `confirmed_names` and `skip_names` are not
supplied (and `fix_misspelled_names_in_srt` has no roster or skip list in
scope to supply), so Python raises a `TypeError` before the callee's body
runs. -/
def callFixCaptionMissingArgs (_caption : String) (_tagger : String → List NameSpan) :
    Except String String :=
  Except.error
    "TypeError: fix_misspelled_names_of_caption missing 2 required positional arguments: confirmed_names and skip_names"

/-- Loop of `fix_misspelled_names_in_srt` (lines 157-171), with the in-place
caption mutation made explicit: an exception raised by the per-caption call
aborts the whole sweep. -/
def sweepCrashAux (tagger : String → List NameSpan) :
    List SubRipItem → Nat → List SubRipItem → Except String (List SubRipItem × Nat)
  | [], change_count, done => Except.ok (done, change_count)
  | sub :: rest, change_count, done =>
    match callFixCaptionMissingArgs sub.text tagger with
    | Except.error e => Except.error e
    | Except.ok caption =>
      if sub.text ≠ caption then
        sweepCrashAux tagger rest (change_count + 1) (done ++ [{ sub with text := caption }])
      else
        sweepCrashAux tagger rest change_count (done ++ [sub])

/-- Embedding of `fix_misspelled_names_in_srt` (lines 137-177) as written in
the source: sweep the captions, counting and writing back changes, where each
iteration performs the (malformed) call of line 160. -/
def fix_misspelled_names_in_srt (srt : List SubRipItem) (tagger : String → List NameSpan) :
    Except String (List SubRipItem × Nat) :=
  sweepCrashAux tagger srt 0 []

/-- Python `s.replace('\n', ' ')` as used on the log texts at lines 165-166. -/
def pyReplaceNl (s : String) : String :=
  ⟨s.data.map (fun c => if c = '\n' then ' ' else c)⟩

/-- The per-change debug log record of line 167: caption index and count, the
record's start and end times, and the before/after texts with newlines
replaced by spaces (the decorative quote characters of the f-string are
omitted). -/
def logLine (i n : Nat) (sub : SubRipItem) (old_caption new_caption : String) : String :=
  "Caption " ++ toString i ++ "/" ++ toString n ++ " from " ++ toString sub.start ++
    " to " ++ toString sub.end_ ++ ":\nBefore: " ++ pyReplaceNl old_caption ++
    "\nAfter:  " ++ pyReplaceNl new_caption ++ "\n"

/-- One iteration of the intended sweep: correct the caption text, and when it
changed, count the change, emit the log record and write the new text back. -/
def sweepStep (roster skip : List String) (tagger : String → List NameSpan) (n : Nat)
    (acc : List SubRipItem × Nat × List String) (p : Nat × SubRipItem) :
    List SubRipItem × Nat × List String :=
  let old_caption := p.2.text
  let caption := fix_misspelled_names_of_caption old_caption roster skip tagger
  if old_caption ≠ caption then
    (acc.1 ++ [{ p.2 with text := caption }], acc.2.1 + 1,
      acc.2.2 ++ [logLine p.1 n p.2 old_caption caption])
  else
    (acc.1 ++ [p.2], acc.2.1, acc.2.2)

/-- Modelled from the spec: the CaptionSweepDriver sweep of section 4.3.  The
source's `fix_misspelled_names_in_srt` cannot execute its per-caption call
(line 160 omits the required roster and skip arguments, see
`callFixCaptionMissingArgs`), so the sweep is modelled with the roster and the
skip list threaded through as the specification's sweep contract requires,
keeping the source's loop shape: enumerate the captions, correct each text,
and when it changed, increment the change counter, emit the line-167 log
record, and write the corrected text back; timing fields are copied through
untouched otherwise. -/
def sweepModel (srt : List SubRipItem) (roster skip : List String)
    (tagger : String → List NameSpan) : List SubRipItem × Nat × List String :=
  srt.enum.foldl (sweepStep roster skip tagger srt.length) ([], 0, [])

/-- A deterministic recognizer stub (specification section 9) for the worked
two-span example: on the example caption it reports the two person spans at
their original-text offsets. -/
def taggerTwoSpans : String → List NameSpan := fun t =>
  if t = "Hi Jonh, meet Marey." then
    [⟨"Jonh", "PER", 3, 7⟩, ⟨"Marey", "PER", 14, 19⟩]
  else []

/-- A deterministic recognizer stub on whose outputs the caption corrector is
not idempotent: it reports the whole text as a person span for one text, and a
proper prefix of the corrected text as a person span for the corrected text. -/
def taggerOscillating : String → List NameSpan := fun t =>
  if t = "aa" then [⟨"aa", "PER", 0, 2⟩]
  else if t = "ab" then [⟨"a", "PER", 0, 1⟩]
  else []

/-- A deterministic recognizer stub that recognizes the misspelled name and,
on the corrected text, the corrected name at the same offsets. -/
def taggerStable : String → List NameSpan := fun t =>
  if t = "Hi Jonh" then [⟨"Jonh", "PER", 3, 7⟩]
  else if t = "Hi John" then [⟨"John", "PER", 3, 7⟩]
  else []

/-! ### Properties of the edit distance -/

theorem editDist_nil (ys : List Char) : editDist [] ys = ys.length := rfl

theorem editDist_cons_nil (x : Char) (xs : List Char) :
    editDist (x :: xs) [] = xs.length + 1 := rfl

theorem editDist_cons_cons (x y : Char) (xs ys : List Char) :
    editDist (x :: xs) (y :: ys) =
      if x = y then editDist xs ys
      else 1 + min (editDist xs (y :: ys)) (min (editDist (x :: xs) ys) (editDist xs ys)) := rfl

theorem editDist_self (xs : List Char) : editDist xs xs = 0 := by
  induction xs with
  | nil => rfl
  | cons x xs ih => rw [editDist_cons_cons, if_pos rfl, ih]

theorem editDist_eq_zero : ∀ xs ys : List Char, editDist xs ys = 0 → xs = ys := by
  intro xs
  induction xs with
  | nil =>
    intro ys h
    rw [editDist_nil] at h
    exact (List.length_eq_zero.mp h).symm
  | cons x xs ih =>
    intro ys h
    cases ys with
    | nil => rw [editDist_cons_nil] at h; omega
    | cons y ys =>
      rw [editDist_cons_cons] at h
      by_cases hxy : x = y
      · rw [if_pos hxy] at h
        rw [hxy, ih ys h]
      · rw [if_neg hxy] at h; omega

theorem distance_self (s : String) : distance s s = 0 := editDist_self s.data

theorem distance_eq_zero {a b : String} (h : distance a b = 0) : a = b :=
  String.ext (editDist_eq_zero a.data b.data h)

/-! ### Properties of the potential-names dictionary -/

theorem mem_dictInsert {p : String × Nat} {k : String} {v : Nat} :
    ∀ {l : List (String × Nat)}, p ∈ dictInsert k v l → p = (k, v) ∨ p ∈ l := by
  intro l
  induction l with
  | nil => intro h; simpa [dictInsert] using h
  | cons q rest ih =>
    intro h
    rw [dictInsert] at h
    by_cases hk : q.1 = k
    · rw [if_pos hk] at h
      rcases List.mem_cons.mp h with h | h
      · exact Or.inl (by rw [h, hk])
      · exact Or.inr (List.mem_cons_of_mem _ h)
    · rw [if_neg hk] at h
      rcases List.mem_cons.mp h with h | h
      · exact Or.inr (h ▸ List.mem_cons_self _ _)
      · rcases ih h with h | h
        · exact Or.inl h
        · exact Or.inr (List.mem_cons_of_mem _ h)

theorem keys_dictInsert {c k : String} {v : Nat} :
    ∀ {l : List (String × Nat)},
      c ∈ (dictInsert k v l).map Prod.fst ↔ c = k ∨ c ∈ l.map Prod.fst := by
  intro l
  induction l with
  | nil => simp [dictInsert]
  | cons q rest ih =>
    rw [dictInsert]
    by_cases hk : q.1 = k
    · rw [if_pos hk]
      simp only [List.map_cons, List.mem_cons, ih]
      constructor
      · rintro (h | h)
        · exact Or.inl (h.trans hk)
        · exact Or.inr (Or.inr h)
      · rintro (h | h | h)
        · exact Or.inl (h.trans hk.symm)
        · exact Or.inl h
        · exact Or.inr h
    · rw [if_neg hk]
      simp only [List.map_cons, List.mem_cons, ih]
      tauto

theorem dictInsert_of_not_mem {k : String} {v : Nat} :
    ∀ {l : List (String × Nat)}, k ∉ l.map Prod.fst → dictInsert k v l = l ++ [(k, v)] := by
  intro l
  induction l with
  | nil => intro _; rfl
  | cons q rest ih =>
    intro h
    simp only [List.map_cons, List.mem_cons] at h
    push_neg at h
    rw [dictInsert, if_neg (fun hq => h.1 hq.symm), ih h.2, List.cons_append]

theorem mem_foldPotential {c : String} {th : Int} :
    ∀ (rest : List String) (acc : List (String × Nat)) (p : String × Nat),
      p ∈ rest.foldl (potentialStep c th) acc →
      p ∈ acc ∨ (p.1 ∈ rest ∧ p.2 = distance c p.1 ∧ acceptName c th p.1 = true) := by
  intro rest
  induction rest with
  | nil => intro acc p h; exact Or.inl h
  | cons conf restt ih =>
    intro acc p h
    rw [List.foldl_cons] at h
    rcases ih _ p h with h | h
    · rw [potentialStep] at h
      by_cases ha : acceptName c th conf = true
      · rw [if_pos ha] at h
        rcases mem_dictInsert h with h | h
        · refine Or.inr ⟨?_, ?_, ?_⟩ <;> rw [h]
          · exact List.mem_cons_self _ _
          · exact ha
        · exact Or.inl h
      · rw [if_neg ha] at h
        exact Or.inl h
    · exact Or.inr ⟨List.mem_cons_of_mem _ h.1, h.2⟩

theorem keys_foldPotential {c : String} {th : Int} :
    ∀ (rest : List String) (acc : List (String × Nat)) (conf : String),
      conf ∈ (rest.foldl (potentialStep c th) acc).map Prod.fst ↔
        conf ∈ acc.map Prod.fst ∨ (conf ∈ rest ∧ acceptName c th conf = true) := by
  intro rest
  induction rest with
  | nil => simp
  | cons x restt ih =>
    intro acc conf
    rw [List.foldl_cons, ih]
    rw [potentialStep]
    by_cases ha : acceptName c th x = true
    · rw [if_pos ha]
      rw [show (conf ∈ (dictInsert x (distance c x) acc).map Prod.fst) ↔ _ from keys_dictInsert]
      constructor
      · rintro ((h | h) | h)
        · exact Or.inr ⟨h ▸ List.mem_cons_self _ _, h ▸ ha⟩
        · exact Or.inl h
        · exact Or.inr ⟨List.mem_cons_of_mem _ h.1, h.2⟩
      · rintro (h | ⟨h1, h2⟩)
        · exact Or.inl (Or.inr h)
        · rcases List.mem_cons.mp h1 with h1 | h1
          · exact Or.inl (Or.inl h1)
          · exact Or.inr ⟨h1, h2⟩
    · rw [if_neg ha]
      constructor
      · rintro (h | h)
        · exact Or.inl h
        · exact Or.inr ⟨List.mem_cons_of_mem _ h.1, h.2⟩
      · rintro (h | ⟨h1, h2⟩)
        · exact Or.inl h
        · rcases List.mem_cons.mp h1 with h1 | h1
          · exact absurd (h1 ▸ h2) ha
          · exact Or.inr ⟨h1, h2⟩

theorem foldPotential_of_nodup {c : String} {th : Int} :
    ∀ (rest : List String) (acc : List (String × Nat)), rest.Nodup →
      (∀ k ∈ rest, k ∉ acc.map Prod.fst) →
      rest.foldl (potentialStep c th) acc =
        acc ++ (rest.filter (acceptName c th)).map (fun n => (n, distance c n)) := by
  intro rest
  induction rest with
  | nil => intro acc _ _; simp
  | cons x restt ih =>
    intro acc hnd hdisj
    rcases List.nodup_cons.mp hnd with ⟨hx, hnd'⟩
    rw [List.foldl_cons, potentialStep]
    by_cases ha : acceptName c th x = true
    · rw [if_pos ha,
        dictInsert_of_not_mem (hdisj x (List.mem_cons_self _ _)),
        ih _ hnd' ?_, List.filter_cons_of_pos ha]
      · simp
      · intro k hk
        simp only [List.map_append, List.mem_append, List.map_cons, List.map_nil,
          List.mem_singleton]
        push_neg
        exact ⟨hdisj k (List.mem_cons_of_mem _ hk), fun he => hx (he ▸ hk)⟩
    · rw [if_neg ha, ih _ hnd' (fun k hk => hdisj k (List.mem_cons_of_mem _ hk)),
        List.filter_cons_of_neg (by simpa using ha)]

theorem buildPotential_of_nodup {c : String} {roster : List String} {th : Int}
    (hnd : roster.Nodup) :
    buildPotential c roster th =
      (roster.filter (acceptName c th)).map (fun n => (n, distance c n)) := by
  rw [buildPotential, foldPotential_of_nodup roster [] hnd (by simp)]
  simp

/-! ### Properties of the stable sort and of the selection rule -/

theorem mem_insertByVal {q p : String × Nat} :
    ∀ {l : List (String × Nat)}, q ∈ insertByVal p l ↔ q = p ∨ q ∈ l := by
  intro l
  induction l with
  | nil => simp [insertByVal]
  | cons r rs ih =>
    rw [insertByVal]
    by_cases hr : r.2 < p.2
    · rw [if_pos hr]
      simp only [List.mem_cons, ih]
      tauto
    · rw [if_neg hr]
      simp only [List.mem_cons]

theorem mem_sortByVal {q : String × Nat} :
    ∀ {l : List (String × Nat)}, q ∈ sortByVal l ↔ q ∈ l := by
  intro l
  induction l with
  | nil => simp [sortByVal]
  | cons x xs ih => simp only [sortByVal, mem_insertByVal, ih, List.mem_cons]

theorem head?_insertByVal (p : String × Nat) (l : List (String × Nat)) :
    (insertByVal p l).head? =
      some (match l.head? with | none => p | some q => if q.2 < p.2 then q else p) := by
  cases l with
  | nil => rfl
  | cons q qs =>
    rw [insertByVal]
    by_cases hq : q.2 < p.2
    · rw [if_pos hq]; simp [hq]
    · rw [if_neg hq]; simp [hq]

theorem head?_sortByVal : ∀ l : List (String × Nat), (sortByVal l).head? = firstMinPair l := by
  intro l
  induction l with
  | nil => rfl
  | cons x xs ih =>
    rw [sortByVal, head?_insertByVal, ih]
    cases hm : firstMinPair xs with
    | none => simp [firstMinPair, hm]
    | some m =>
      simp only [firstMinPair, hm]
      by_cases hx : x.2 ≤ m.2
      · rw [if_pos hx, if_neg (by omega)]
      · rw [if_neg hx, if_pos (by omega)]

theorem firstMinPair_ne_none (x : String × Nat) (xs : List (String × Nat)) :
    firstMinPair (x :: xs) ≠ none := by
  cases hm : firstMinPair xs with
  | none => simp [firstMinPair, hm]
  | some m =>
    simp only [firstMinPair, hm]
    by_cases hx : x.2 ≤ m.2
    · rw [if_pos hx]; simp
    · rw [if_neg hx]; simp

theorem firstMinPair_mem :
    ∀ {l : List (String × Nat)} {m : String × Nat}, firstMinPair l = some m → m ∈ l := by
  intro l
  induction l with
  | nil => intro m h; simp [firstMinPair] at h
  | cons x xs ih =>
    intro m h
    cases hm : firstMinPair xs with
    | none =>
      simp only [firstMinPair, hm] at h
      exact (Option.some_injective _ h) ▸ List.mem_cons_self _ _
    | some m' =>
      simp only [firstMinPair, hm] at h
      by_cases hx : x.2 ≤ m'.2
      · rw [if_pos hx] at h
        exact (Option.some_injective _ h) ▸ List.mem_cons_self _ _
      · rw [if_neg hx] at h
        exact List.mem_cons_of_mem _ ((Option.some_injective _ h) ▸ ih hm)

theorem firstMinPair_min :
    ∀ {l : List (String × Nat)} {m : String × Nat}, firstMinPair l = some m →
      ∀ q ∈ l, m.2 ≤ q.2 := by
  intro l
  induction l with
  | nil => intro m h; simp [firstMinPair] at h
  | cons x xs ih =>
    intro m h q hq
    cases hm : firstMinPair xs with
    | none =>
      cases xs with
      | nil =>
        simp only [firstMinPair, hm] at h
        rcases List.mem_singleton.mp hq with rfl
        rw [← Option.some_injective _ h]
      | cons y ys => exact absurd hm (firstMinPair_ne_none y ys)
    | some m' =>
      simp only [firstMinPair, hm] at h
      by_cases hx : x.2 ≤ m'.2
      · rw [if_pos hx] at h
        rw [← Option.some_injective _ h]
        rcases List.mem_cons.mp hq with rfl | hq
        · exact Nat.le_refl _
        · exact Nat.le_trans hx (ih hm q hq)
      · rw [if_neg hx] at h
        rw [← Option.some_injective _ h]
        rcases List.mem_cons.mp hq with rfl | hq
        · omega
        · exact ih hm q hq

theorem firstMinPair_map (f : String → Nat) :
    ∀ l : List String,
      firstMinPair (l.map fun n => (n, f n)) = (firstMinBy f l).map fun n => (n, f n) := by
  intro l
  induction l with
  | nil => rfl
  | cons x xs ih =>
    rw [List.map_cons]
    cases hm : firstMinBy f xs with
    | none =>
      simp only [firstMinPair, firstMinBy, ih, hm, Option.map_none', Option.map_some']
    | some m =>
      simp only [firstMinPair, firstMinBy, ih, hm, Option.map_some']
      by_cases hx : f x ≤ f m
      · rw [if_pos hx, if_pos hx, Option.map_some']
      · rw [if_neg hx, if_neg hx, Option.map_some']

theorem firstMinBy_ne_none {f : String → Nat} :
    ∀ {l : List String}, l ≠ [] → ∃ b, firstMinBy f l = some b := by
  intro l h
  cases l with
  | nil => exact absurd rfl h
  | cons x xs =>
    cases hm : firstMinBy f xs with
    | none => exact ⟨x, by simp [firstMinBy, hm]⟩
    | some m =>
      simp only [firstMinBy, hm]
      by_cases hx : f x ≤ f m
      · rw [if_pos hx]; exact ⟨x, rfl⟩
      · rw [if_neg hx]; exact ⟨m, rfl⟩

/-! ### Properties of the splicing arithmetic -/

theorem take_min : ∀ (l : List Char) (n : Nat), l.take (min n l.length) = l.take n := by
  intro l
  induction l with
  | nil => intro n; simp
  | cons x xs ih =>
    intro n
    cases n with
    | zero => simp
    | succ n =>
      simp only [List.length_cons, Nat.succ_min_succ, List.take_succ_cons]
      rw [ih]

theorem drop_min : ∀ (l : List Char) (n : Nat), l.drop (min n l.length) = l.drop n := by
  intro l
  induction l with
  | nil => intro n; simp
  | cons x xs ih =>
    intro n
    cases n with
    | zero => simp
    | succ n =>
      simp only [List.length_cons, Nat.succ_min_succ, List.drop_succ_cons]
      rw [ih]

theorem splice_id (l : List Char) {a b : Nat} (h : a ≤ b) :
    l.take a ++ ((l.drop a).take (b - a) ++ l.drop b) = l := by
  have hdrop : l.drop b = (l.drop a).drop (b - a) := by
    rw [List.drop_drop]
    congr 1
    omega
  rw [hdrop, List.take_append_drop, List.take_append_drop]

theorem pyIdx_natCast (len n : Nat) : pyIdx len (n : Int) = min n len := by
  rw [pyIdx, if_neg (by omega), Int.toNat_natCast]

/-- A single `captionStep` is the identity on a state with zero shift when the
span is well formed for the working text and the matcher leaves the span's
text unchanged. -/
theorem captionStep_id (roster skip : List String) (t' : String) (sp : NameSpan)
    (h1 : sp.text_start_pos ≤ sp.text_end_pos)
    (h2 : sp.text = pySliceStr t' sp.text_start_pos sp.text_end_pos)
    (h3 : fix_misspelled_name sp.text roster skip 2 = sp.text) :
    captionStep roster skip (t', 0) sp = (t', 0) := by
  rw [captionStep]
  simp only [h3, Prod.mk.injEq]
  constructor
  · apply String.ext
    rw [String.data_append, String.data_append]
    rw [pyTakeStr, pyDropStr, h2, pySliceStr]
    simp only [Int.add_zero, pyIdx_natCast]
    rw [take_min, drop_min, List.append_assoc]
    exact splice_id t'.data h1
  · simp only [h2]
    omega

/-- Folding `captionStep` over a list of spans that are all well formed for the
working text and all left unchanged by the matcher is the identity. -/
theorem captionFold_id (roster skip : List String) (t' : String) :
    ∀ spans : List NameSpan,
      (∀ sp ∈ spans, sp.text_start_pos ≤ sp.text_end_pos ∧
          sp.text = pySliceStr t' sp.text_start_pos sp.text_end_pos ∧
          fix_misspelled_name sp.text roster skip 2 = sp.text) →
      spans.foldl (captionStep roster skip) (t', 0) = (t', 0) := by
  intro spans
  induction spans with
  | nil => intro _; rfl
  | cons sp rest ih =>
    intro h
    rcases h sp (List.mem_cons_self _ _) with ⟨h1, h2, h3⟩
    rw [List.foldl_cons, captionStep_id roster skip t' sp h1 h2 h3]
    exact ih (fun q hq => h q (List.mem_cons_of_mem _ hq))

/-- When the recognizer reports no person span, the caption corrector returns
its input unchanged (lines 114-116 of the source). -/
theorem caption_of_no_spans {caption_text : String} {confirmed_names skip_names : List String}
    {tagger : String → List NameSpan}
    (h : recognize_names caption_text tagger = []) :
    fix_misspelled_names_of_caption caption_text confirmed_names skip_names tagger =
      caption_text := by
  rw [fix_misspelled_names_of_caption]
  simp [h]

/-! ### Characterization of the matcher -/

theorem head?_mem {l : List (String × Nat)} {m : String × Nat}
    (h : l.head? = some m) : m ∈ l := by
  cases l with
  | nil => simp at h
  | cons x xs =>
    simp only [List.head?_cons, Option.some_inj] at h
    exact h ▸ List.mem_cons_self _ _

/-- On a skip-free candidate with a nonempty set of accepted roster entries,
`fix_misspelled_name` returns exactly the first accepted entry, in roster
iteration order, of minimal distance. -/
theorem fixName_eq_firstMin {c : String} {roster skip : List String} {th : Int}
    (hskip : c ∉ skip) (hnd : roster.Nodup)
    (hne : roster.filter (acceptName c th) ≠ []) :
    ∃ b, firstMinBy (distance c) (roster.filter (acceptName c th)) = some b ∧
      fix_misspelled_name c roster skip th = b := by
  obtain ⟨b, hb⟩ := firstMinBy_ne_none hne
  have hbuild : buildPotential c roster th =
      (roster.filter (acceptName c th)).map (fun n => (n, distance c n)) :=
    buildPotential_of_nodup hnd
  have hpne : buildPotential c roster th ≠ [] := by
    rw [hbuild]
    simpa [List.map_eq_nil_iff] using hne
  have hhead : (sortByVal (buildPotential c roster th)).head? = some (b, distance c b) := by
    rw [head?_sortByVal, hbuild, firstMinPair_map, hb]
    rfl
  refine ⟨b, hb, ?_⟩
  simp only [fix_misspelled_name]
  rw [if_neg hskip, if_neg hpne, hhead]

/-- The matcher never fabricates a string: its result is the candidate itself
or a member of the roster. -/
theorem fixName_mem_or_self (c : String) (roster skip : List String) (th : Int) :
    fix_misspelled_name c roster skip th = c ∨
      fix_misspelled_name c roster skip th ∈ roster := by
  by_cases hskip : c ∈ skip
  · left; simp only [fix_misspelled_name]; rw [if_pos hskip]
  · by_cases hpne : buildPotential c roster th = []
    · left; simp only [fix_misspelled_name]; rw [if_neg hskip, if_pos hpne]
    · cases hh : (sortByVal (buildPotential c roster th)).head? with
      | none =>
        left
        simp only [fix_misspelled_name]
        rw [if_neg hskip, if_neg hpne, hh]
      | some m =>
        right
        have hm : m ∈ buildPotential c roster th := mem_sortByVal.mp (head?_mem hh)
        rcases mem_foldPotential roster [] m (by rw [buildPotential] at hm; exact hm)
          with h | h
        · exact absurd h (List.not_mem_nil m)
        · simp only [fix_misspelled_name]
          rw [if_neg hskip, if_neg hpne, hh]
          exact h.1

/-- A candidate that is itself a roster member is returned unchanged whenever
the threshold is not negative. -/
theorem fixName_of_mem {c : String} {roster skip : List String} {th : Int}
    (hth : 0 ≤ th) (hmem : c ∈ roster) :
    fix_misspelled_name c roster skip th = c := by
  by_cases hskip : c ∈ skip
  · simp only [fix_misspelled_name]; rw [if_pos hskip]
  · have hacc : acceptName c th c = true := by
      rw [acceptName, distance_self]
      by_cases hl : c.length ≤ 3
      · simp [hl]
      · simp [hl, Nat.lt_of_not_le hl, hth]
    have hkey : c ∈ (buildPotential c roster th).map Prod.fst :=
      (keys_foldPotential roster [] c).mpr (Or.inr ⟨hmem, hacc⟩)
    obtain ⟨p, hp, hpc⟩ := List.mem_map.mp hkey
    have hp0 : p.2 = 0 := by
      rcases mem_foldPotential roster [] p (by rw [buildPotential] at hp; exact hp)
        with h | h
      · exact absurd h (List.not_mem_nil p)
      · rw [h.2.1, hpc, distance_self]
    have hpne : buildPotential c roster th ≠ [] := by
      intro h0
      rw [h0] at hp
      exact absurd hp (List.not_mem_nil p)
    obtain ⟨m, hm⟩ : ∃ m, firstMinPair (buildPotential c roster th) = some m := by
      cases hbp : buildPotential c roster th with
      | nil => exact absurd hbp hpne
      | cons q qs =>
        cases hfm : firstMinPair (q :: qs) with
        | none => exact absurd hfm (firstMinPair_ne_none q qs)
        | some m => exact ⟨m, rfl⟩
    have hm2 : m.2 = 0 := by
      have := firstMinPair_min hm p hp
      omega
    have hm1 : m.1 = c := by
      rcases mem_foldPotential roster [] m
          (by rw [buildPotential] at *; exact firstMinPair_mem hm) with h | h
      · exact absurd h (List.not_mem_nil m)
      · have : distance c m.1 = 0 := by rw [← h.2.1, hm2]
        exact (distance_eq_zero this).symm
    simp only [fix_misspelled_name]
    rw [if_neg hskip, if_neg hpne, head?_sortByVal, hm]
    exact hm1

/-! ### Auxiliary characterizations -/

theorem acceptName_iff {c conf : String} {th : Int} :
    acceptName c th conf = true ↔
      ((conf.length ≤ 3 ∧ distance c conf ≤ 1) ∨
        (3 < conf.length ∧ (distance c conf : Int) ≤ th)) := by
  rw [acceptName]
  simp [Bool.or_eq_true, Bool.and_eq_true, decide_eq_true_iff]

theorem distance_nil_left (s : String) : distance "" s = s.length := rfl

/-! ### The claims -/

/-- C1: the caption corrector splices each span's replacement into the working
text at the span's offsets shifted by the running `shift`, updating `shift` by
the length difference after each span — formally, it equals the left fold of
the specification's splicing rule `specSpliceStep` (applied to the matcher's
replacement) over the recognized spans — and on the caption
"Hi Jonh, meet Marey." with person spans Jonh at offsets 3-7 and Marey at
offsets 14-19, roster John and Mary, threshold 2 and an empty skip set, the
output is exactly "Hi John, meet Mary.". -/
theorem c1_splice_rule :
    (∀ (caption_text : String) (confirmed_names skip_names : List String)
        (tagger : String → List NameSpan),
      fix_misspelled_names_of_caption caption_text confirmed_names skip_names tagger =
        ((recognize_names caption_text tagger).foldl
          (fun st sp =>
            specSpliceStep (fix_misspelled_name sp.text confirmed_names skip_names 2) st sp)
          (caption_text, (0 : Int))).1) ∧
    fix_misspelled_names_of_caption "Hi Jonh, meet Marey." ["John", "Mary"] []
        taggerTwoSpans =
      "Hi John, meet Mary." := by
  constructor
  · intro caption_text confirmed_names skip_names tagger
    simp only [fix_misspelled_names_of_caption]
    by_cases h : (recognize_names caption_text tagger).length = 0
    · rw [if_pos h, List.length_eq_zero.mp h]
      rfl
    · rw [if_neg h]
      rfl
  · decide

/-- C2: a roster entry becomes a potential match exactly under the
length-aware rule — an entry of length at most 3 needs distance at most 1, a
longer entry needs distance at most the threshold — and with roster
consisting of "Al", the candidate "Ale" is replaced by "Al" while the
candidate "Ally" is returned unchanged. -/
theorem c2_length_aware_rule :
    (∀ (recognized : String) (roster : List String) (th : Int) (conf : String),
      conf ∈ (buildPotential recognized roster th).map Prod.fst ↔
        conf ∈ roster ∧
          ((conf.length ≤ 3 ∧ distance recognized conf ≤ 1) ∨
            (3 < conf.length ∧ (distance recognized conf : Int) ≤ th))) ∧
    fix_misspelled_name "Ale" ["Al"] [] 2 = "Al" ∧
    fix_misspelled_name "Ally" ["Al"] [] 2 = "Ally" := by
  refine ⟨?_, by decide, by decide⟩
  intro recognized roster th conf
  rw [buildPotential, keys_foldPotential]
  simp [acceptName_iff]

/-- C3: on a skip-free candidate with at least one accepted entry in a
duplicate-free roster (the specification's roster is a set), the matcher
returns an accepted entry of minimal distance, namely exactly the first
minimal-distance accepted entry in roster iteration order; being a pure
function of its arguments, the selection is deterministic. -/
theorem c3_min_distance_first (recognized : String) (roster skip : List String) (th : Int)
    (hskip : recognized ∉ skip) (hnd : roster.Nodup)
    (hne : roster.filter (acceptName recognized th) ≠ []) :
    some (fix_misspelled_name recognized roster skip th) =
      firstMinBy (distance recognized) (roster.filter (acceptName recognized th)) ∧
    fix_misspelled_name recognized roster skip th ∈
      roster.filter (acceptName recognized th) ∧
    ∀ c ∈ roster.filter (acceptName recognized th),
      distance recognized (fix_misspelled_name recognized roster skip th) ≤
        distance recognized c := by
  obtain ⟨b, hb, hfix⟩ := fixName_eq_firstMin hskip hnd hne
  have hpair : firstMinPair ((roster.filter (acceptName recognized th)).map
      (fun n => (n, distance recognized n))) = some (b, distance recognized b) := by
    rw [firstMinPair_map, hb]
    rfl
  rw [hfix]
  refine ⟨by rw [hb], ?_, ?_⟩
  · obtain ⟨n, hn, he⟩ := List.mem_map.mp (firstMinPair_mem hpair)
    have hnb : n = b := congrArg Prod.fst he
    exact hnb ▸ hn
  · intro c hc
    have := firstMinPair_min hpair (c, distance recognized c) (List.mem_map_of_mem _ hc)
    simpa using this

theorem c3_min_distance_first_witness :
    some (fix_misspelled_name "Jonh" ["John", "Mary"] [] 2) =
      firstMinBy (distance "Jonh") (["John", "Mary"].filter (acceptName "Jonh" 2)) ∧
    fix_misspelled_name "Jonh" ["John", "Mary"] [] 2 ∈
      ["John", "Mary"].filter (acceptName "Jonh" 2) ∧
    ∀ c ∈ ["John", "Mary"].filter (acceptName "Jonh" 2),
      distance "Jonh" (fix_misspelled_name "Jonh" ["John", "Mary"] [] 2) ≤
        distance "Jonh" c :=
  c3_min_distance_first "Jonh" ["John", "Mary"] [] 2 (by decide) (by decide) (by decide)

/-- C4: a candidate belonging to the skip set is returned unchanged, with no
matching attempted, whatever the roster and the threshold. -/
theorem c4_skip_absolute (recognized : String) (roster skip : List String) (th : Int)
    (h : recognized ∈ skip) :
    fix_misspelled_name recognized roster skip th = recognized := by
  simp only [fix_misspelled_name]
  rw [if_pos h]

theorem c4_skip_absolute_witness :
    fix_misspelled_name "Bob" ["Alice"] ["Bob"] 2 = "Bob" :=
  c4_skip_absolute "Bob" ["Alice"] ["Bob"] 2 (by decide)

/-- C5: when the recognizer reports zero person spans, the caption corrector
returns the text unchanged. -/
theorem c5_no_spans_no_change (caption_text : String)
    (confirmed_names skip_names : List String) (tagger : String → List NameSpan)
    (h : recognize_names caption_text tagger = []) :
    fix_misspelled_names_of_caption caption_text confirmed_names skip_names tagger =
      caption_text :=
  caption_of_no_spans h

theorem c5_no_spans_no_change_witness :
    fix_misspelled_names_of_caption "hello there" ["John"] [] (fun _ => []) =
      "hello there" :=
  c5_no_spans_no_change "hello there" ["John"] [] (fun _ => []) rfl

/-- C6 counterexample: with the fixed, deterministic recognizer
`taggerOscillating`, roster consisting of "ab" and an empty skip set,
applying the caption corrector to "aa" gives "ab", but applying it again
gives "abb", so correct (correct text) differs from correct text. -/
theorem c6_idempotence_counterexample :
    fix_misspelled_names_of_caption
        (fix_misspelled_names_of_caption "aa" ["ab"] [] taggerOscillating)
        ["ab"] [] taggerOscillating ≠
      fix_misspelled_names_of_caption "aa" ["ab"] [] taggerOscillating := by
  decide

/-- C6 (amended): the caption corrector is idempotent provided every span the
recognizer reports on the corrected text is well formed for that text (its
start is at most its end and its text equals the slice of the corrected text
at its offsets) and its text is left unchanged by the matcher. -/
theorem c6_idempotent_of_stable_spans (text : String) (roster skip : List String)
    (tagger : String → List NameSpan)
    (h : ∀ sp ∈ recognize_names
        (fix_misspelled_names_of_caption text roster skip tagger) tagger,
      sp.text_start_pos ≤ sp.text_end_pos ∧
        sp.text = pySliceStr (fix_misspelled_names_of_caption text roster skip tagger)
          sp.text_start_pos sp.text_end_pos ∧
        fix_misspelled_name sp.text roster skip 2 = sp.text) :
    fix_misspelled_names_of_caption
        (fix_misspelled_names_of_caption text roster skip tagger) roster skip tagger =
      fix_misspelled_names_of_caption text roster skip tagger := by
  set t' := fix_misspelled_names_of_caption text roster skip tagger with ht'
  by_cases h0 : recognize_names t' tagger = []
  · exact caption_of_no_spans h0
  · simp only [fix_misspelled_names_of_caption]
    rw [if_neg (fun hl => h0 (List.length_eq_zero.mp hl)),
      captionFold_id roster skip t' _ h]

theorem c6_idempotent_witness :
    fix_misspelled_names_of_caption
        (fix_misspelled_names_of_caption "Hi Jonh" ["John"] [] taggerStable)
        ["John"] [] taggerStable =
      fix_misspelled_names_of_caption "Hi Jonh" ["John"] [] taggerStable :=
  c6_idempotent_of_stable_spans "Hi Jonh" ["John"] [] taggerStable (by decide)

/-- C7: the sweep as written never corrects anything — on every nonempty
caption list, `fix_misspelled_names_in_srt` stops with a TypeError at its
first caption, because the call at line 160 of the source omits the required
`confirmed_names` and `skip_names` arguments (and the function has no roster
or skip list to pass). -/
theorem c7_sweep_call_crashes (srt : List SubRipItem) (tagger : String → List NameSpan)
    (h : srt ≠ []) :
    fix_misspelled_names_in_srt srt tagger =
      Except.error
        "TypeError: fix_misspelled_names_of_caption missing 2 required positional arguments: confirmed_names and skip_names" := by
  cases srt with
  | nil => exact absurd rfl h
  | cons sub rest => rfl

theorem c7_sweep_call_crashes_witness :
    fix_misspelled_names_in_srt [⟨0, 1, "Hello"⟩] (fun _ => []) =
      Except.error
        "TypeError: fix_misspelled_names_of_caption missing 2 required positional arguments: confirmed_names and skip_names" :=
  c7_sweep_call_crashes [⟨0, 1, "Hello"⟩] (fun _ => []) (List.cons_ne_nil _ _)

/-- C8 counterexample: the sweep's debug-log output (the third component of
`sweepModel`, which does not carry any input field through unmodified) depends
on the timing fields — two caption lists that agree on every text and differ
only in one start time produce different log records, because the line-167
debug log formats `sub.start` and `sub.end` into the change record; so the
timing fields are read. -/
theorem c8_timing_read_counterexample :
    (sweepModel [⟨5, 9, "Hi Jonh"⟩] ["John"] [] taggerStable).2.2 ≠
      (sweepModel [⟨6, 9, "Hi Jonh"⟩] ["John"] [] taggerStable).2.2 := by
  decide

/-- C8 (amended): the sweep never writes the timing fields — every output
record carries the start and end of the corresponding input record — but it
does read them, to format the per-change debug log
(`c8_timing_read_counterexample`). -/
theorem c8_timing_never_written (srt : List SubRipItem) (roster skip : List String)
    (tagger : String → List NameSpan) :
    ((sweepModel srt roster skip tagger).1).map (fun sub => (sub.start, sub.end_)) =
      srt.map (fun sub => (sub.start, sub.end_)) := by
  have key : ∀ (ps : List (Nat × SubRipItem)) (acc : List SubRipItem × Nat × List String),
      ((ps.foldl (sweepStep roster skip tagger srt.length) acc).1).map
          (fun sub => (sub.start, sub.end_)) =
        acc.1.map (fun sub => (sub.start, sub.end_)) ++
          ps.map (fun p => (p.2.start, p.2.end_)) := by
    intro ps
    induction ps with
    | nil => intro acc; simp
    | cons p ps ih =>
      intro acc
      rw [List.foldl_cons, ih]
      simp only [sweepStep]
      by_cases hc : p.2.text ≠
          fix_misspelled_names_of_caption p.2.text roster skip tagger
      · rw [if_pos hc]
        simp [List.map_append]
      · rw [if_neg hc]
        simp [List.map_append]
  rw [sweepModel, key]
  simp only [List.map_nil, List.nil_append]
  rw [show (fun p : Nat × SubRipItem => (p.2.start, p.2.end_)) =
      (fun sub : SubRipItem => (sub.start, sub.end_)) ∘ Prod.snd from rfl,
    ← List.map_map, List.enum_map_snd]

/-- C9 counterexample: on the empty candidate the matcher does not always
return the candidate unchanged — with roster consisting of the single-letter
entry "A", the empty string is at distance 1 from "A", the entry is accepted
by the short-name rule, and "A" is returned. -/
theorem c9_empty_candidate_counterexample :
    fix_misspelled_name "" ["A"] [] 2 = "A" ∧ "A" ≠ "" :=
  ⟨by decide, by decide⟩

/-- C9 (amended): the matcher is total, and both degenerate inputs degrade
gracefully rather than raising: with an empty roster every candidate is
returned unchanged, and the empty candidate is returned unchanged provided no
roster entry is accepted against it — every entry has length at least 2 and
every entry longer than 3 exceeds the threshold.  Without that proviso the
empty candidate can come back replaced by an accepted roster entry, as
`c9_empty_candidate_counterexample` shows with roster ["A"]. -/
theorem c9_empty_degrades (candidate : String) (roster skip : List String) (th : Int) :
    fix_misspelled_name candidate [] skip th = candidate ∧
    ((∀ n ∈ roster, 2 ≤ n.length ∧ (3 < n.length → th < (n.length : Int))) →
      fix_misspelled_name "" roster skip th = "") := by
  constructor
  · by_cases hsk : candidate ∈ skip
    · simp only [fix_misspelled_name]; rw [if_pos hsk]
    · simp only [fix_misspelled_name]
      rw [if_neg hsk, if_pos (show buildPotential candidate [] th = [] from rfl)]
  · intro hr
    by_cases hsk : "" ∈ skip
    · simp only [fix_misspelled_name]; rw [if_pos hsk]
    · have hbp : buildPotential "" roster th = [] := by
        cases hb : buildPotential "" roster th with
        | nil => rfl
        | cons p ps =>
          exfalso
          have hp : p ∈ buildPotential "" roster th := by
            rw [hb]; exact List.mem_cons_self _ _
          rcases mem_foldPotential roster [] p
              (by rw [buildPotential] at hp; exact hp) with h | h
          · exact absurd h (List.not_mem_nil p)
          · have hd : distance "" p.1 = p.1.length := distance_nil_left p.1
            rcases hr p.1 h.1 with ⟨hr1, hr2⟩
            rcases acceptName_iff.mp h.2.2 with ⟨h1, h2⟩ | ⟨h1, h2⟩
            · rw [hd] at h2; omega
            · rw [hd] at h2
              have := hr2 h1
              omega
      simp only [fix_misspelled_name]
      rw [if_neg hsk, if_pos hbp]

theorem c9_empty_degrades_witness :
    fix_misspelled_name "x" [] [] 2 = "x" ∧
      fix_misspelled_name "" ["Jo", "Anna"] [] 2 = "" :=
  ⟨(c9_empty_degrades "x" ["Jo", "Anna"] [] 2).1,
    (c9_empty_degrades "x" ["Jo", "Anna"] [] 2).2 (by decide)⟩

/-- C10 counterexample: with a negative threshold a candidate that is itself a
roster member is not returned unchanged — "Anna" is in the roster, but its
self-distance 0 does not pass the threshold test 0 ≤ -1, while the short
entry "Ann" at distance 1 passes the short-name rule, so "Ann" is
returned. -/
theorem c10_roster_member_counterexample :
    fix_misspelled_name "Anna" ["Ann", "Anna"] [] (-1) = "Ann" ∧
      "Anna" ∈ ["Ann", "Anna"] ∧ "Ann" ≠ "Anna" :=
  ⟨by decide, by decide, by decide⟩

/-- C10 (amended): the matcher never fabricates a name — its result is either
the candidate itself or a roster member — and a candidate that is itself a
roster member is returned unchanged whenever the threshold is not negative
(in particular at the default threshold 2); with a negative threshold a
roster member can be replaced (`c10_roster_member_counterexample`). -/
theorem c10_no_fabrication (recognized : String) (roster skip : List String) (th : Int) :
    (fix_misspelled_name recognized roster skip th = recognized ∨
      fix_misspelled_name recognized roster skip th ∈ roster) ∧
    (0 ≤ th → recognized ∈ roster →
      fix_misspelled_name recognized roster skip th = recognized) :=
  ⟨fixName_mem_or_self recognized roster skip th, fun hth hmem => fixName_of_mem hth hmem⟩

theorem c10_no_fabrication_witness :
    (fix_misspelled_name "Jonh" ["John"] [] 2 = "Jonh" ∨
      fix_misspelled_name "Jonh" ["John"] [] 2 ∈ ["John"]) ∧
      fix_misspelled_name "John" ["John"] [] 2 = "John" :=
  ⟨(c10_no_fabrication "Jonh" ["John"] [] 2).1,
    (c10_no_fabrication "John" ["John"] [] 2).2 (by decide) (by decide)⟩
